import Mathlib

/-!
# Verification of the five-point stencil simulation

This file embeds the three implementations of the repository's 2D five-point
stencil kernel — the naive serial baseline, the cache-optimized single-threaded
version (`cache_optimized.cpp`), and the OpenMP/std::thread parallel version —
and proves the specification's claims about them.

Modelling conventions:
* `double` values are modelled as exact rationals (`ℚ`); every arithmetic
  operation of the source (`+`, `-`, `*`, `/` with the literal constants
  `0.25`, `0.5`, `10.0`, `5.0`, `15.45`, `-6.7`, `1e-2`) is translated
  verbatim.
* A heap buffer of `nx*ny` doubles addressed row-major as `buf[i*ny + j]`
  is modelled as a total function `ℕ → ℕ → ℚ`; this coordinate view is exact
  because every access in the source keeps `0 ≤ j < ny`.  Loops that mutate a
  buffer are modelled as left folds of single-cell writes in source order.
* The C math library's `sin`, and `pi = 4*atan(1)` (computed identically by
  all three programs), are abstract parameters.
* All loop counters of the source are C `int`s that remain non-negative for
  the configurations the claims quantify over, so they are modelled as `ℕ`.
-/

namespace StencilSim

/-- A grid buffer: cell `(i, j)` models the row-major entry `buf[i*ny + j]`. -/
abbrev Field2 : Type := ℕ → ℕ → ℚ

/-- A single assignment `buf[i*ny + j] = v`. -/
def writeCell (g : Field2) (i j : ℕ) (v : ℚ) : Field2 :=
  fun i' j' => if i' = i ∧ j' = j then v else g i' j'

/-! ## Definitions translated from the source -/

/-- The five-point interior stencil expression shared by the cache-optimized
and parallel implementations:
`(vi[(i+1)*ny+j] + vi[(i-1)*ny+j] + vi[i*ny+(j-1)] + vi[i*ny+(j+1)]) * 0.25`
(the serial baseline divides by `4.` instead; see `serialF`). -/
def stencilFormula (vi : Field2) (i j : ℕ) : ℚ :=
  (vi (i+1) j + vi (i-1) j + vi i (j-1) + vi i (j+1)) * 0.25

/-- The inner column loop `for (j = 1; j < ny-1; ++j) vr[i*ny+j] = …` of the
interior update, for one row `i`. -/
def stencilRow (ny : ℕ) (vi : Field2) (i : ℕ) (vr : Field2) : Field2 :=
  (List.range' 1 (ny - 2)).foldl
    (fun acc j => writeCell acc i j (stencilFormula vi i j)) vr

/-- `stencil_update_block` of the parallel implementation: the interior
stencil restricted to rows `[i_begin, i_end)` clipped to `[1, nx-1)`:
`for (i = max(1, i_begin); i < min(nx-1, i_end); ++i)` over the inner loop. -/
def stencil_update_block (vi vr : Field2) (nx ny i_begin i_end : ℕ) : Field2 :=
  (List.range' (max 1 i_begin) (min (nx - 1) i_end - max 1 i_begin)).foldl
    (fun acc i => stencilRow ny vi i acc) vr

/-- The interior double loop of the cache-optimized implementation
(`for i in [1, nx-1), for j in [1, ny-1)`), identical to the OpenMP interior
loop of the parallel implementation. -/
def interiorLoop (nx ny : ℕ) (vi vr : Field2) : Field2 :=
  (List.range' 1 (nx - 2)).foldl (fun acc i => stencilRow ny vi i acc) vr

/-- The boundary row loop (identical in the cache-optimized and parallel
implementations): for each `1 ≤ j < ny-1` writes row `0` then row `nx-1`,
reading only `vi`. -/
def boundaryRows (nx ny : ℕ) (vi vr : Field2) : Field2 :=
  (List.range' 1 (ny - 2)).foldl
    (fun acc j =>
      writeCell
        (writeCell acc 0 j ((vi 1 j + 10.0 + vi 0 (j-1) + vi 0 (j+1)) * 0.25))
        (nx - 1) j
        ((5.0 + vi (nx-2) j + vi (nx-1) (j-1) + vi (nx-1) (j+1)) * 0.25)) vr

/-- The boundary column loop: for each `1 ≤ i < nx-1` writes column `0` then
column `ny-1`, reading only `vi`. -/
def boundaryCols (nx ny : ℕ) (vi vr : Field2) : Field2 :=
  (List.range' 1 (nx - 2)).foldl
    (fun acc i =>
      writeCell
        (writeCell acc i 0 ((vi (i+1) 0 + vi (i-1) 0 + 15.45 + vi i 1) * 0.25))
        i (ny - 1)
        ((vi (i+1) (ny-1) + vi (i-1) (ny-1) + vi i (ny-2) - 6.7) * 0.25)) vr

/-- The full-grid row-major traversal `for i in [0,nx), for j in [0,ny)`. -/
def gridCells (nx ny : ℕ) : List (ℕ × ℕ) :=
  (List.range nx).flatMap (fun i => (List.range ny).map (fun j => (i, j)))

/-- One diagnostic record: `t  i  j  fabs(vi[i,j])  fabs(vr[i,j])`. -/
structure DiagRecord where
  step : ℕ
  i : ℕ
  j : ℕ
  oldAbs : ℚ
  newAbs : ℚ
deriving DecidableEq, Repr

/-- The diagnostic scan of one step (identical in all three implementations):
emits a record for each cell with `fabs(fabs(vr) - fabs(vi)) < 1e-2`, in
row-major traversal order. -/
def diagScan (nx ny t : ℕ) (vi vr : Field2) : List DiagRecord :=
  (gridCells nx ny).filterMap (fun c =>
    if |(|vr c.1 c.2|) - (|vi c.1 c.2|)| < 1e-2 then
      some ⟨t, c.1, c.2, |vi c.1 c.2|, |vr c.1 c.2|⟩
    else none)

/-- The averaging loop over the flat index range `[b, e)`:
`for (k = b; k < e; ++k) vi[k] = (vi[k] + vr[k]) * 0.5`.  The cache-optimized
relaxation is the instance `b = 0`, `e = nx*ny`; the `avg_block` lambda of the
parallel implementation runs it once per partition block. -/
def relaxRange (ny : ℕ) (vr : Field2) (b e : ℕ) (vi : Field2) : Field2 :=
  (List.range' b (e - b)).foldl
    (fun acc k => writeCell acc (k / ny) (k % ny)
      ((acc (k / ny) (k % ny) + vr (k / ny) (k % ny)) * 0.5)) vi

/-- The per-cell body of the serial baseline's single `(i, j)` update loop:
the interior case and the four edge cases, guarded exactly as in the source;
cells matching no guard (the corners and, off a degenerate grid, nothing
else) are not written (`none`). -/
def serialF (nx ny : ℕ) (vi : Field2) (i j : ℕ) : Option ℚ :=
  if 0 < i ∧ i < nx-1 ∧ 0 < j ∧ j < ny-1 then
    some ((vi (i+1) j + vi (i-1) j + vi i (j-1) + vi i (j+1)) / 4)
  else if i = 0 ∧ i < nx-1 ∧ 0 < j ∧ j < ny-1 then
    some ((vi (i+1) j + 10 + vi i (j-1) + vi i (j+1)) / 4)
  else if 0 < i ∧ i = nx-1 ∧ 0 < j ∧ j < ny-1 then
    some ((5 + vi (i-1) j + vi i (j-1) + vi i (j+1)) / 4)
  else if 0 < i ∧ i < nx-1 ∧ j = 0 ∧ j < ny-1 then
    some ((vi (i+1) j + vi (i-1) j + 15.45 + vi i (j+1)) / 4)
  else if 0 < i ∧ i < nx-1 ∧ 0 < j ∧ j = ny-1 then
    some ((vi (i+1) j + vi (i-1) j + vi i (j-1) - 6.7) / 4)
  else none

/-- The serial baseline's update pass: the full-grid traversal applying
`serialF` as conditional writes into `vr`. -/
def serialPass (nx ny : ℕ) (vi vr : Field2) : Field2 :=
  (gridCells nx ny).foldl (fun acc c =>
    match serialF nx ny vi c.1 c.2 with
    | some v => writeCell acc c.1 c.2 v
    | none => acc) vr

/-- The serial baseline's relaxation loop:
`vi[i][j] = vi[i][j]/2. + vr[i][j]/2.` over the full grid. -/
def serialRelax (nx ny : ℕ) (vr vi : Field2) : Field2 :=
  (gridCells nx ny).foldl
    (fun acc c => writeCell acc c.1 c.2 (acc c.1 c.2 / 2 + vr c.1 c.2 / 2)) vi

/-! ### The parallel fallback's partitioners -/

/-- `chunk = max(1, rows / num_threads)` with `rows = nx - 2`. -/
def pChunk (nx W : ℕ) : ℕ := max 1 ((nx - 2) / W)

/-- `i_begin = 1 + tid * chunk`. -/
def pBegin (nx W tid : ℕ) : ℕ := 1 + tid * pChunk nx W

/-- `i_end = (tid == num_threads - 1) ? (nx - 1) : min(nx - 1, i_begin + chunk)`. -/
def pEnd (nx W tid : ℕ) : ℕ :=
  if tid = W - 1 then nx - 1 else min (nx - 1) (pBegin nx W tid + pChunk nx W)

/-- The std::thread fallback interior update: worker `tid < W` runs
`stencil_update_block` on rows `[pBegin tid, pEnd tid)`.  The workers write
disjoint rows and read only `vi`, so their parallel composition equals this
sequential fold over the thread ids. -/
def parallelInterior (nx ny W : ℕ) (vi vr : Field2) : Field2 :=
  (List.range W).foldl
    (fun acc tid => stencil_update_block vi acc nx ny (pBegin nx W tid) (pEnd nx W tid)) vr

/-- `block = max(1, total / num_threads2)` with `total = nx * ny`. -/
def rChunk (nx ny W2 : ℕ) : ℕ := max 1 (nx * ny / W2)

/-- `begin = tid * block` of the relaxation partitioner. -/
def rBegin (nx ny W2 tid : ℕ) : ℕ := tid * rChunk nx ny W2

/-- `end = (tid == num_threads2 - 1) ? total : min(total, begin + block)`. -/
def rEnd (nx ny W2 tid : ℕ) : ℕ :=
  if tid = W2 - 1 then nx * ny
  else min (nx * ny) (rBegin nx ny W2 tid + rChunk nx ny W2)

/-- The std::thread fallback relaxation: worker `tid < W2` averages the flat
block `[rBegin tid, rEnd tid)`.  Blocks are disjoint, so the parallel
composition equals this sequential fold over the thread ids. -/
def parallelRelax (nx ny W2 : ℕ) (vr vi : Field2) : Field2 :=
  (List.range W2).foldl
    (fun acc tid => relaxRange ny vr (rBegin nx ny W2 tid) (rEnd nx ny W2 tid) acc) vi

/-! ### Initialization and the time-step loops -/

/-- Cache-optimized initialization: `vi[i*ny+j] = i_sq * j * i_factor` with
`i_sq = i * i` and `i_factor = sin(pi / nx * i)`; `sin` and
`pi = 4.0 * atan(1.0)` are abstract parameters for the C math library. -/
def initCache (sin : ℚ → ℚ) (pi : ℚ) (nx : ℕ) : Field2 :=
  fun i j => (i * i : ℚ) * j * sin (pi / nx * i)

/-- Parallel initialization: as `initCache` but with `i_sq = 1.0 * i * i`. -/
def initParallel (sin : ℚ → ℚ) (pi : ℚ) (nx : ℕ) : Field2 :=
  fun i j => (1.0 * i * i : ℚ) * j * sin (pi / nx * i)

/-- Serial initialization:
`vi[i][j] = double(i*i) * double(j) * sin(pi / double(nx) * double(i))`. -/
def initSerial (sin : ℚ → ℚ) (pi : ℚ) (nx : ℕ) : Field2 :=
  fun i j => (i * i : ℚ) * j * sin (pi / nx * i)

/-- The result buffer `vr` is initialized to `0.0` by all three programs. -/
def zeroField : Field2 := fun _ _ => 0

/-- A concrete test field used to evaluate the theorems at specific inputs. -/
def fldA : Field2 := fun i j => (i : ℚ) + j

/-- A concrete test field used to evaluate the theorems at specific inputs. -/
def fldB : Field2 := fun i j => (i : ℚ) * j

/-- A concrete test field used to evaluate the theorems at specific inputs. -/
def fldC : Field2 := fun i j => (i : ℚ) + 2 * j

/-- A concrete test field used to evaluate the theorems at specific inputs. -/
def fldD : Field2 := fun i j => (i : ℚ) - j

/-- A concrete constant test field. -/
def constField (c : ℚ) : Field2 := fun _ _ => c

/-- One cache-optimized step's result buffer: interior loops, then boundary
rows and columns, all reading `vi` only. -/
def cacheVrStep (nx ny : ℕ) (vi vr : Field2) : Field2 :=
  boundaryCols nx ny vi (boundaryRows nx ny vi (interiorLoop nx ny vi vr))

/-- One parallel step's result buffer: partitioned interior, then the same
serial boundary loops. -/
def parVrStep (nx ny W : ℕ) (vi vr : Field2) : Field2 :=
  boundaryCols nx ny vi (boundaryRows nx ny vi (parallelInterior nx ny W vi vr))

/-- The cache-optimized time-step loop: final `vi`, final `vr`, and the
concatenated diagnostic records of steps `0 … nt-1`. -/
def cacheRun (nx ny : ℕ) (vi vr : Field2) : ℕ → Field2 × Field2 × List DiagRecord
  | 0 => (vi, vr, [])
  | nt + 1 =>
    let s := cacheRun nx ny vi vr nt
    let vrB := cacheVrStep nx ny s.1 s.2.1
    (relaxRange ny vrB 0 (nx * ny) s.1, vrB, s.2.2 ++ diagScan nx ny nt s.1 vrB)

/-- The parallel (std::thread fallback) time-step loop with `W` interior
workers and `W2` relaxation workers. -/
def parallelRun (nx ny W W2 : ℕ) (vi vr : Field2) :
    ℕ → Field2 × Field2 × List DiagRecord
  | 0 => (vi, vr, [])
  | nt + 1 =>
    let s := parallelRun nx ny W W2 vi vr nt
    let vrB := parVrStep nx ny W s.1 s.2.1
    (parallelRelax nx ny W2 vrB s.1, vrB, s.2.2 ++ diagScan nx ny nt s.1 vrB)

/-- The serial baseline's time-step loop. -/
def serialRun (nx ny : ℕ) (vi vr : Field2) : ℕ → Field2 × Field2 × List DiagRecord
  | 0 => (vi, vr, [])
  | nt + 1 =>
    let s := serialRun nx ny vi vr nt
    let vrB := serialPass nx ny s.1 s.2.1
    (serialRelax nx ny vrB s.1, vrB, s.2.2 ++ diagScan nx ny nt s.1 vrB)

/-! ### Program-level control flow (validation, sink opening, exit status) -/

/-- Observable outcome of one whole program run. -/
inductive ProgResult where
  | fatal (exitCode : ℤ)
  | finished (finalVi finalVr : Field2) (recs : List DiagRecord)

/-- Whether the run aborted with a nonzero exit status. -/
def ProgResult.isFatal : ProgResult → Bool
  | .fatal _ => true
  | .finished _ _ _ => false

/-- `main` of `cache_optimized.cpp`: parses `nx ny nt` with no validation of
any kind, allocates and initializes, opens the sink — returning 1 before any
stepping if that fails — then runs the loop `for (t = 0; t < nt; ++t)`
(`max(nt,0)` iterations) and returns 0. -/
def cacheMain (sin : ℚ → ℚ) (pi : ℚ) (nx ny : ℕ) (nt : ℤ) (sinkOk : Bool) :
    ProgResult :=
  if sinkOk then
    let s := cacheRun nx ny (initCache sin pi nx) zeroField nt.toNat
    .finished s.1 s.2.1 s.2.2
  else .fatal 1

/-- `main` of the parallel implementation: same control flow as `cacheMain`
(no configuration validation; `return 1` if the sink cannot be opened). -/
def parallelMain (sin : ℚ → ℚ) (pi : ℚ) (nx ny W W2 : ℕ) (nt : ℤ)
    (sinkOk : Bool) : ProgResult :=
  if sinkOk then
    let s := parallelRun nx ny W W2 (initParallel sin pi nx) zeroField nt.toNat
    .finished s.1 s.2.1 s.2.2
  else .fatal 1

/-- `main` of the serial baseline: parses `nx ny nt` with no validation, opens
`ofstream fout("data_out")` *without checking the stream*, runs all
`max(nt,0)` steps regardless, and falls off `main` (exit status 0).  The
`sinkOk` argument is accepted and ignored, exactly as the source ignores the
stream state. -/
def serialMain (sin : ℚ → ℚ) (pi : ℚ) (nx ny : ℕ) (nt : ℤ) (sinkOk : Bool) :
    ProgResult :=
  let s := serialRun nx ny (initSerial sin pi nx) zeroField nt.toNat
  .finished s.1 s.2.1 s.2.2

/-! ## Generic facts about single-cell writes and folded loops -/

theorem writeCell_apply (g : Field2) (i j i' j' : ℕ) (v : ℚ) :
    writeCell g i j v i' j' = if i' = i ∧ j' = j then v else g i' j' := rfl

/-- Folding single-cell writes over a duplicate-free list of cells, where the
written value may read the current value of the cell being written, updates
exactly the listed cells (and nothing else). -/
theorem foldl_selfUpdate (u : ℕ → ℕ → ℚ → ℚ) :
    ∀ (cs : List (ℕ × ℕ)), cs.Nodup → ∀ (g : Field2) (i j : ℕ),
      cs.foldl (fun acc c => writeCell acc c.1 c.2 (u c.1 c.2 (acc c.1 c.2))) g i j
        = if (i, j) ∈ cs then u i j (g i j) else g i j
  | [], _, g, i, j => by simp
  | c0 :: rest, hnd, g, i, j => by
    rw [List.foldl_cons,
      foldl_selfUpdate u rest (List.nodup_cons.mp hnd).2]
    by_cases hmem : (i, j) ∈ rest
    · have hne : ¬(i = c0.1 ∧ j = c0.2) := by
        rintro ⟨h1, h2⟩
        exact (List.nodup_cons.mp hnd).1 (by
          have : c0 = (i, j) := by
            cases c0; simp_all
          rw [this]; exact hmem)
      simp [writeCell, hmem, hne]
    · by_cases hc0 : i = c0.1 ∧ j = c0.2
      · obtain ⟨h1, h2⟩ := hc0
        have hm : (i, j) ∈ c0 :: rest := by cases c0; simp_all
        rw [if_neg hmem, if_pos hm]
        simp [writeCell, h1, h2]
      · have : ¬(i, j) ∈ c0 :: rest := by
          cases c0
          simp only [List.mem_cons]
          rintro (h | h)
          · exact hc0 (by simpa [Prod.ext_iff] using h)
          · exact hmem h
        simp [writeCell, hmem, hc0, this]

/-- Folding conditional single-cell writes whose written value is determined
by the coordinates alone: the traversal updates a listed cell exactly when the
value function fires on it. -/
theorem foldl_optWrite (f : ℕ → ℕ → Option ℚ) :
    ∀ (cs : List (ℕ × ℕ)) (g : Field2) (i j : ℕ),
      cs.foldl (fun acc c => match f c.1 c.2 with
        | some v => writeCell acc c.1 c.2 v
        | none => acc) g i j
        = if (i, j) ∈ cs then (f i j).getD (g i j) else g i j
  | [], g, i, j => by simp
  | c0 :: rest, g, i, j => by
    rw [List.foldl_cons, foldl_optWrite f rest]
    by_cases hc0 : i = c0.1 ∧ j = c0.2
    · obtain ⟨h1, h2⟩ := hc0
      have hmem : (i, j) ∈ c0 :: rest := by cases c0; simp_all
      rcases hf : f c0.1 c0.2 with _ | v
      · by_cases hr : (i, j) ∈ rest
        · simp [hmem, hr, h1, h2, hf]
        · simp [hmem, hr, h1, h2, hf]
      · by_cases hr : (i, j) ∈ rest
        · simp [writeCell, hmem, hr, h1, h2, hf]
        · simp [writeCell, hmem, hr, h1, h2, hf]
    · have hstep : ∀ acc : Field2, (match f c0.1 c0.2 with
          | some v => writeCell acc c0.1 c0.2 v
          | none => acc) i j = acc i j := by
        intro acc
        rcases f c0.1 c0.2 with _ | v
        · rfl
        · simp [writeCell, hc0]
      have hmem : ((i, j) ∈ c0 :: rest) ↔ (i, j) ∈ rest := by
        cases c0
        simp only [List.mem_cons]
        constructor
        · rintro (h | h)
          · exact absurd (by simpa [Prod.ext_iff] using h) hc0
          · exact h
        · exact Or.inr
      by_cases hr : (i, j) ∈ rest
      · simp [hmem, hr, hstep g]
      · simp [hmem, hr, hstep g]

/-- Folding a loop that writes rows `r₁` and `r₂` (in that order, `r₁ ≠ r₂`)
at each column of `js`, with coordinate-determined values. -/
theorem foldl_twoRowWrite (r₁ r₂ : ℕ) (h : r₁ ≠ r₂) (v₁ v₂ : ℕ → ℚ) :
    ∀ (js : List ℕ) (g : Field2) (i j : ℕ),
      js.foldl (fun acc jc => writeCell (writeCell acc r₁ jc (v₁ jc)) r₂ jc (v₂ jc)) g i j
        = if i = r₁ ∧ j ∈ js then v₁ j
          else if i = r₂ ∧ j ∈ js then v₂ j else g i j
  | [], g, i, j => by simp
  | j0 :: rest, g, i, j => by
    rw [List.foldl_cons, foldl_twoRowWrite r₁ r₂ h v₁ v₂ rest]
    by_cases h1 : i = r₁
    · subst h1
      by_cases hj : j ∈ rest
      · simp [hj, h, writeCell]
      · by_cases hj0 : j = j0
        · subst hj0
          simp [hj, h, writeCell, Ne.symm h]
        · simp [hj, hj0, h, writeCell, Ne.symm h]
    · by_cases h2 : i = r₂
      · subst h2
        by_cases hj : j ∈ rest
        · simp [hj, h1, writeCell]
        · by_cases hj0 : j = j0
          · subst hj0
            simp [hj, h1, writeCell]
          · simp [hj, hj0, h1, writeCell]
      · simp [h1, h2, writeCell]

/-- Folding a loop that writes columns `c₁` and `c₂` (in that order,
`c₁ ≠ c₂`) at each row of `is`, with coordinate-determined values. -/
theorem foldl_twoColWrite (c₁ c₂ : ℕ) (h : c₁ ≠ c₂) (v₁ v₂ : ℕ → ℚ) :
    ∀ (is : List ℕ) (g : Field2) (i j : ℕ),
      is.foldl (fun acc ic => writeCell (writeCell acc ic c₁ (v₁ ic)) ic c₂ (v₂ ic)) g i j
        = if j = c₁ ∧ i ∈ is then v₁ i
          else if j = c₂ ∧ i ∈ is then v₂ i else g i j
  | [], g, i, j => by simp
  | i0 :: rest, g, i, j => by
    rw [List.foldl_cons, foldl_twoColWrite c₁ c₂ h v₁ v₂ rest]
    by_cases h1 : j = c₁
    · subst h1
      by_cases hi : i ∈ rest
      · simp [hi, h, writeCell]
      · by_cases hi0 : i = i0
        · subst hi0
          simp [hi, h, writeCell, Ne.symm h]
        · simp [hi, hi0, h, writeCell, Ne.symm h]
    · by_cases h2 : j = c₂
      · subst h2
        by_cases hi : i ∈ rest
        · simp [hi, h1, writeCell]
        · by_cases hi0 : i = i0
          · subst hi0
            simp [hi, h1, writeCell]
          · simp [hi, hi0, h1, writeCell]
      · simp [h1, h2, writeCell]

/-- Row-major encode/decode: quotient. -/
theorem encode_div (i ny j : ℕ) (h : j < ny) : (i * ny + j) / ny = i := by
  rw [mul_comm, Nat.mul_add_div (by omega)]
  simp [Nat.div_eq_of_lt h]

/-- Row-major encode/decode: remainder. -/
theorem encode_mod (i ny j : ℕ) (h : j < ny) : (i * ny + j) % ny = j := by
  simp [Nat.add_mod, Nat.mul_mod_left, Nat.mod_eq_of_lt h]

/-- Row-major decode/encode round trip. -/
theorem decode_encode (k ny : ℕ) : (k / ny) * ny + k % ny = k := by
  rw [mul_comm]
  exact Nat.div_add_mod k ny

/-! ## Closed-form characterizations of the loops -/

theorem mem_gridCells (nx ny i j : ℕ) :
    (i, j) ∈ gridCells nx ny ↔ i < nx ∧ j < ny := by
  unfold gridCells
  rw [List.mem_flatMap]
  constructor
  · rintro ⟨a, ha, hm⟩
    rw [List.mem_map] at hm
    obtain ⟨b, hb, hbe⟩ := hm
    have h1 : a = i := congrArg Prod.fst hbe
    have h2 : b = j := congrArg Prod.snd hbe
    subst h1; subst h2
    exact ⟨List.mem_range.mp ha, List.mem_range.mp hb⟩
  · rintro ⟨hi, hj⟩
    exact ⟨i, List.mem_range.mpr hi, List.mem_map.mpr ⟨j, List.mem_range.mpr hj, rfl⟩⟩

theorem nodup_gridCells (nx ny : ℕ) : (gridCells nx ny).Nodup := by
  unfold gridCells
  rw [List.nodup_flatMap]
  refine ⟨fun a _ => ?_, ?_⟩
  · exact List.Nodup.map (fun x y hxy => by simpa using hxy) (List.nodup_range ny)
  · refine List.Pairwise.imp ?_ (List.nodup_range nx)
    intro a b hab
    intro c hca hcb
    rw [List.mem_map] at hca hcb
    obtain ⟨x, _, hx⟩ := hca
    obtain ⟨y, _, hy⟩ := hcb
    exact hab ((congrArg Prod.fst hx).trans (congrArg Prod.fst hy).symm)

theorem length_gridCells (nx ny : ℕ) : (gridCells nx ny).length = nx * ny := by
  unfold gridCells
  rw [List.length_flatMap]
  have h : (List.map (List.length ∘ fun i => List.map (fun j => (i, j)) (List.range ny))
      (List.range nx)) = List.map (fun _ => ny) (List.range nx) := by
    simp [Function.comp_def]
  rw [h, List.map_const', List.sum_replicate, List.length_range, smul_eq_mul]

/-- Single-row write loops with duplicate-free column lists. -/
theorem foldl_rowWrite (r : ℕ) (v : ℕ → ℚ) (js : List ℕ) (hnd : js.Nodup)
    (g : Field2) (i j : ℕ) :
    js.foldl (fun acc jc => writeCell acc r jc (v jc)) g i j
      = if i = r ∧ j ∈ js then v j else g i j := by
  have hinj : Function.Injective (fun jc : ℕ => (r, jc)) := by
    intro a b hab
    simpa using hab
  have h := foldl_selfUpdate (fun _ b _ => v b) (js.map (fun jc => (r, jc)))
    (hnd.map hinj) g i j
  rw [List.foldl_map] at h
  rw [h]
  have hmem : ((i, j) ∈ js.map (fun jc => (r, jc))) ↔ (i = r ∧ j ∈ js) := by
    rw [List.mem_map]
    constructor
    · rintro ⟨a, ha, hae⟩
      have h1 : r = i := congrArg Prod.fst hae
      have h2 : a = j := congrArg Prod.snd hae
      exact ⟨h1.symm, h2 ▸ ha⟩
    · rintro ⟨rfl, hj⟩
      exact ⟨j, hj, rfl⟩
  by_cases hc : i = r ∧ j ∈ js
  · rw [if_pos (hmem.mpr hc), if_pos hc]
  · rw [if_neg (fun hx => hc (hmem.mp hx)), if_neg hc]

theorem stencilRow_apply (ny : ℕ) (vi : Field2) (r : ℕ) (vr : Field2) (i j : ℕ) :
    stencilRow ny vi r vr i j
      = if i = r ∧ (1 ≤ j ∧ j < 1 + (ny - 2)) then stencilFormula vi i j
        else vr i j := by
  unfold stencilRow
  rw [foldl_rowWrite r (fun jc => stencilFormula vi r jc) _
    (List.nodup_range' _ _ _ one_pos)]
  by_cases hc : i = r ∧ (1 ≤ j ∧ j < 1 + (ny - 2))
  · obtain ⟨rfl, hj⟩ := hc
    rw [if_pos ⟨rfl, List.mem_range'_1.mpr hj⟩, if_pos ⟨rfl, hj⟩]
  · rw [if_neg, if_neg hc]
    rintro ⟨rfl, hj⟩
    exact hc ⟨rfl, List.mem_range'_1.mp hj⟩

theorem foldl_stencilRows (ny : ℕ) (vi : Field2) :
    ∀ (is : List ℕ) (g : Field2) (i j : ℕ),
      (is.foldl (fun acc r => stencilRow ny vi r acc) g) i j
        = if i ∈ is ∧ (1 ≤ j ∧ j < 1 + (ny - 2)) then stencilFormula vi i j
          else g i j
  | [], g, i, j => by simp
  | r0 :: rest, g, i, j => by
    rw [List.foldl_cons, foldl_stencilRows ny vi rest, stencilRow_apply]
    by_cases hj : 1 ≤ j ∧ j < 1 + (ny - 2)
    · by_cases hr : i ∈ rest
      · simp [hj, hr]
      · by_cases hr0 : i = r0
        · simp [hj, hr, hr0]
        · simp [hj, hr, hr0]
    · simp [hj]

theorem interiorLoop_apply (nx ny : ℕ) (vi vr : Field2) (i j : ℕ) :
    interiorLoop nx ny vi vr i j
      = if (1 ≤ i ∧ i < 1 + (nx - 2)) ∧ (1 ≤ j ∧ j < 1 + (ny - 2))
        then stencilFormula vi i j else vr i j := by
  unfold interiorLoop
  rw [foldl_stencilRows]
  by_cases hi : 1 ≤ i ∧ i < 1 + (nx - 2)
  · rw [if_congr (iff_of_eq (congrArg _ rfl)) rfl rfl]
    by_cases hj : 1 ≤ j ∧ j < 1 + (ny - 2)
    · rw [if_pos ⟨List.mem_range'_1.mpr hi, hj⟩, if_pos ⟨hi, hj⟩]
    · rw [if_neg (fun h => hj h.2), if_neg (fun h => hj h.2)]
  · rw [if_neg (fun h => hi (List.mem_range'_1.mp h.1)), if_neg (fun h => hi h.1)]

theorem stencil_update_block_apply (vi vr : Field2) (nx ny ib ie : ℕ) (i j : ℕ) :
    stencil_update_block vi vr nx ny ib ie i j
      = if (max 1 ib ≤ i ∧ i < min (nx - 1) ie) ∧ (1 ≤ j ∧ j < 1 + (ny - 2))
        then stencilFormula vi i j else vr i j := by
  unfold stencil_update_block
  rw [foldl_stencilRows]
  have key : ∀ a b : ℕ, (a ≤ i ∧ i < a + (b - a)) ↔ (a ≤ i ∧ i < b) := by
    intro a b; omega
  by_cases hi : max 1 ib ≤ i ∧ i < min (nx - 1) ie
  · by_cases hj : 1 ≤ j ∧ j < 1 + (ny - 2)
    · rw [if_pos ⟨List.mem_range'_1.mpr ((key _ _).mpr hi), hj⟩, if_pos ⟨hi, hj⟩]
    · rw [if_neg (fun h => hj h.2), if_neg (fun h => hj h.2)]
  · rw [if_neg (fun h => hi ((key _ _).mp (List.mem_range'_1.mp h.1))),
      if_neg (fun h => hi h.1)]

theorem boundaryRows_apply (nx ny : ℕ) (hnx : 2 ≤ nx) (vi vr : Field2) (i j : ℕ) :
    boundaryRows nx ny vi vr i j
      = if i = 0 ∧ (1 ≤ j ∧ j < 1 + (ny - 2)) then
          (vi 1 j + 10.0 + vi 0 (j-1) + vi 0 (j+1)) * 0.25
        else if i = nx - 1 ∧ (1 ≤ j ∧ j < 1 + (ny - 2)) then
          (5.0 + vi (nx-2) j + vi (nx-1) (j-1) + vi (nx-1) (j+1)) * 0.25
        else vr i j := by
  unfold boundaryRows
  rw [foldl_twoRowWrite 0 (nx - 1) (by omega)
    (fun j => (vi 1 j + 10.0 + vi 0 (j-1) + vi 0 (j+1)) * 0.25)
    (fun j => (5.0 + vi (nx-2) j + vi (nx-1) (j-1) + vi (nx-1) (j+1)) * 0.25)]
  simp only [List.mem_range'_1]

theorem boundaryCols_apply (nx ny : ℕ) (hny : 2 ≤ ny) (vi vr : Field2) (i j : ℕ) :
    boundaryCols nx ny vi vr i j
      = if j = 0 ∧ (1 ≤ i ∧ i < 1 + (nx - 2)) then
          (vi (i+1) 0 + vi (i-1) 0 + 15.45 + vi i 1) * 0.25
        else if j = ny - 1 ∧ (1 ≤ i ∧ i < 1 + (nx - 2)) then
          (vi (i+1) (ny-1) + vi (i-1) (ny-1) + vi i (ny-2) - 6.7) * 0.25
        else vr i j := by
  unfold boundaryCols
  rw [foldl_twoColWrite 0 (ny - 1) (by omega)
    (fun i => (vi (i+1) 0 + vi (i-1) 0 + 15.45 + vi i 1) * 0.25)
    (fun i => (vi (i+1) (ny-1) + vi (i-1) (ny-1) + vi i (ny-2) - 6.7) * 0.25)]
  simp only [List.mem_range'_1]

theorem serialPass_apply (nx ny : ℕ) (vi vr : Field2) (i j : ℕ) :
    serialPass nx ny vi vr i j
      = if i < nx ∧ j < ny then (serialF nx ny vi i j).getD (vr i j)
        else vr i j := by
  unfold serialPass
  rw [foldl_optWrite (serialF nx ny vi) (gridCells nx ny) vr i j]
  by_cases hc : i < nx ∧ j < ny
  · rw [if_pos ((mem_gridCells nx ny i j).mpr hc), if_pos hc]
  · rw [if_neg (fun h => hc ((mem_gridCells nx ny i j).mp h)), if_neg hc]

theorem serialRelax_apply (nx ny : ℕ) (vr vi : Field2) (i j : ℕ) :
    serialRelax nx ny vr vi i j
      = if i < nx ∧ j < ny then vi i j / 2 + vr i j / 2 else vi i j := by
  unfold serialRelax
  rw [foldl_selfUpdate (fun a b x => x / 2 + vr a b / 2) _ (nodup_gridCells nx ny)]
  by_cases hc : i < nx ∧ j < ny
  · rw [if_pos ((mem_gridCells nx ny i j).mpr hc), if_pos hc]
  · rw [if_neg (fun h => hc ((mem_gridCells nx ny i j).mp h)), if_neg hc]

theorem relaxRange_apply (ny : ℕ) (hny : 0 < ny) (vr : Field2) (b e : ℕ)
    (vi : Field2) (i j : ℕ) :
    relaxRange ny vr b e vi i j
      = if (b ≤ i * ny + j ∧ i * ny + j < e) ∧ j < ny
        then (vi i j + vr i j) * 0.5 else vi i j := by
  have hinj : Function.Injective (fun k : ℕ => (k / ny, k % ny)) := by
    intro a b hab
    have h1 : a / ny = b / ny := congrArg Prod.fst hab
    have h2 : a % ny = b % ny := congrArg Prod.snd hab
    rw [← decode_encode a ny, ← decode_encode b ny, h1, h2]
  have h := foldl_selfUpdate (fun a b x => (x + vr a b) * 0.5)
    ((List.range' b (e - b)).map (fun k => (k / ny, k % ny)))
    (List.Nodup.map hinj (List.nodup_range' _ _ _ one_pos)) vi i j
  rw [List.foldl_map] at h
  unfold relaxRange
  rw [h]
  have hmem : ((i, j) ∈ (List.range' b (e - b)).map (fun k => (k / ny, k % ny)))
      ↔ ((b ≤ i * ny + j ∧ i * ny + j < e) ∧ j < ny) := by
    rw [List.mem_map]
    constructor
    · rintro ⟨k, hk, hke⟩
      have h1 : k / ny = i := congrArg Prod.fst hke
      have h2 : k % ny = j := congrArg Prod.snd hke
      have hj : j < ny := h2 ▸ Nat.mod_lt k hny
      have henc : i * ny + j = k := by
        rw [← h1, ← h2, decode_encode]
      rw [List.mem_range'_1] at hk
      exact ⟨⟨henc ▸ hk.1, by omega⟩, hj⟩
    · rintro ⟨⟨hb, he⟩, hj⟩
      refine ⟨i * ny + j, List.mem_range'_1.mpr ⟨hb, by omega⟩, ?_⟩
      rw [encode_div i ny j hj, encode_mod i ny j hj]
  by_cases hc : (b ≤ i * ny + j ∧ i * ny + j < e) ∧ j < ny
  · rw [if_pos (hmem.mpr hc), if_pos hc]
  · rw [if_neg (fun hx => hc (hmem.mp hx)), if_neg hc]

/-! ## Coverage and disjointness of the chunked partitions -/

/-- Generic coverage: the ranges `[o + k*c, o + (k+1)*c)` clipped to `T`, with
the last of `W` ranges extended to `T`, cover exactly `[o, T)`. -/
theorem chunk_cover (o c T W : ℕ) (hc : 1 ≤ c) (hW : 1 ≤ W) (i : ℕ) :
    (∃ k, k < W ∧ o + k * c ≤ i ∧
        i < (if k = W - 1 then T else min T (o + k * c + c)))
      ↔ (o ≤ i ∧ i < T) := by
  constructor
  · rintro ⟨k, hk, h1, h2⟩
    refine ⟨by omega, ?_⟩
    by_cases hkW : k = W - 1
    · rw [if_pos hkW] at h2
      exact h2
    · rw [if_neg hkW] at h2
      exact lt_of_lt_of_le h2 (min_le_left _ _)
  · rintro ⟨h1, h2⟩
    obtain ⟨q, r, hdm, hr⟩ : ∃ q r, c * q + r = i - o ∧ r < c :=
      ⟨(i - o) / c, (i - o) % c, Nat.div_add_mod _ _, Nat.mod_lt _ (by omega)⟩
    have hmc : q * c = c * q := Nat.mul_comm q c
    by_cases hqW : q ≤ W - 1
    · refine ⟨q, by omega, by omega, ?_⟩
      by_cases hlast : q = W - 1
      · rw [if_pos hlast]
        exact h2
      · rw [if_neg hlast]
        exact lt_min h2 (by omega)
    · refine ⟨W - 1, by omega, ?_, ?_⟩
      · have h3 : (W - 1) * c ≤ q * c := Nat.mul_le_mul_right c (by omega)
        omega
      · rw [if_pos rfl]
        exact h2

/-- Generic disjointness: a non-final chunk ends no later than any later
chunk begins. -/
theorem chunk_end_le_begin (o c T W k1 k2 : ℕ) (h12 : k1 < k2) (h2W : k2 < W) :
    (if k1 = W - 1 then T else min T (o + k1 * c + c)) ≤ o + k2 * c := by
  have hk1 : k1 ≠ W - 1 := by omega
  rw [if_neg hk1]
  have h3 : (k1 + 1) * c ≤ k2 * c := Nat.mul_le_mul_right c (by omega)
  have h4 : (k1 + 1) * c = k1 * c + c := by ring
  have h5 := min_le_right T (o + k1 * c + c)
  omega

/-- The interior-row partition of the parallel fallback covers exactly the
interior rows `[1, nx-1)`. -/
theorem pcov (nx W : ℕ) (hW : 1 ≤ W) (i : ℕ) :
    (∃ k, k < W ∧ pBegin nx W k ≤ i ∧ i < pEnd nx W k) ↔ (1 ≤ i ∧ i < nx - 1) := by
  simp only [pBegin, pEnd]
  exact chunk_cover 1 (pChunk nx W) (nx - 1) W (le_max_left _ _) hW i

/-- The interior-row partitions are ordered: an earlier one ends before a
later one begins. -/
theorem pEnd_le_pBegin (nx W k1 k2 : ℕ) (h12 : k1 < k2) (h2W : k2 < W) :
    pEnd nx W k1 ≤ pBegin nx W k2 := by
  simp only [pBegin, pEnd]
  exact chunk_end_le_begin 1 (pChunk nx W) (nx - 1) W k1 k2 h12 h2W

/-- The flat relaxation partition covers exactly the flat indices
`[0, nx*ny)`. -/
theorem rcov (nx ny W2 : ℕ) (hW2 : 1 ≤ W2) (m : ℕ) :
    (∃ k, k < W2 ∧ rBegin nx ny W2 k ≤ m ∧ m < rEnd nx ny W2 k) ↔ m < nx * ny := by
  have h := chunk_cover 0 (rChunk nx ny W2) (nx * ny) W2 (le_max_left _ _) hW2 m
  simp only [Nat.zero_add] at h
  simp only [rBegin, rEnd]
  rw [h]
  simp

/-- The flat relaxation partitions are ordered. -/
theorem rEnd_le_rBegin (nx ny W2 k1 k2 : ℕ) (h12 : k1 < k2) (h2W : k2 < W2) :
    rEnd nx ny W2 k1 ≤ rBegin nx ny W2 k2 := by
  have h := chunk_end_le_begin 0 (rChunk nx ny W2) (nx * ny) W2 k1 k2 h12 h2W
  simp only [Nat.zero_add] at h
  simp only [rBegin, rEnd]
  exact h

/-! ## The parallel folds agree with the sequential loops -/

theorem foldl_blocks_apply (nx ny W : ℕ) (vi : Field2) :
    ∀ (n : ℕ) (g : Field2) (i j : ℕ),
      ((List.range n).foldl
        (fun acc tid =>
          stencil_update_block vi acc nx ny (pBegin nx W tid) (pEnd nx W tid)) g) i j
        = if (∃ t, t < n ∧ max 1 (pBegin nx W t) ≤ i ∧
              i < min (nx - 1) (pEnd nx W t)) ∧ (1 ≤ j ∧ j < 1 + (ny - 2))
          then stencilFormula vi i j else g i j
  | 0, g, i, j => by simp
  | n + 1, g, i, j => by
    rw [List.range_succ, List.foldl_append, List.foldl_cons, List.foldl_nil,
      stencil_update_block_apply, foldl_blocks_apply nx ny W vi n]
    by_cases hj : 1 ≤ j ∧ j < 1 + (ny - 2)
    · by_cases hn : max 1 (pBegin nx W n) ≤ i ∧ i < min (nx - 1) (pEnd nx W n)
      · have hex : ∃ t, t < n + 1 ∧ max 1 (pBegin nx W t) ≤ i ∧
            i < min (nx - 1) (pEnd nx W t) := ⟨n, by omega, hn⟩
        rw [if_pos ⟨hn, hj⟩, if_pos ⟨hex, hj⟩]
      · rw [if_neg (fun h => hn h.1)]
        by_cases hex : ∃ t, t < n ∧ max 1 (pBegin nx W t) ≤ i ∧
            i < min (nx - 1) (pEnd nx W t)
        · obtain ⟨t, ht, hcond⟩ := hex
          rw [if_pos ⟨⟨t, ht, hcond⟩, hj⟩, if_pos ⟨⟨t, by omega, hcond⟩, hj⟩]
        · rw [if_neg (fun h => hex h.1), if_neg]
          rintro ⟨⟨t, ht, hcond⟩, -⟩
          by_cases htn : t = n
          · exact hn (htn ▸ hcond)
          · exact hex ⟨t, by omega, hcond⟩
    · rw [if_neg (fun h => hj h.2), if_neg (fun h => hj h.2), if_neg (fun h => hj h.2)]

/-- For `nx ≥ 3` and at least one worker, the partitioned interior update of
the std::thread fallback computes exactly the sequential interior loops. -/
theorem parallelInterior_eq_interiorLoop (nx ny W : ℕ) (hnx : 3 ≤ nx) (hW : 1 ≤ W)
    (vi vr : Field2) :
    parallelInterior nx ny W vi vr = interiorLoop nx ny vi vr := by
  funext i j
  unfold parallelInterior
  rw [foldl_blocks_apply, interiorLoop_apply]
  have hclip : ∀ t, max 1 (pBegin nx W t) = pBegin nx W t
      ∧ min (nx - 1) (pEnd nx W t) = pEnd nx W t := by
    intro t
    constructor
    · refine Nat.max_eq_right ?_
      simp only [pBegin]
      omega
    · refine Nat.min_eq_right ?_
      simp only [pEnd]
      by_cases ht : t = W - 1
      · rw [if_pos ht]
      · rw [if_neg ht]
        exact min_le_left _ _
  have hiff : (∃ t, t < W ∧ max 1 (pBegin nx W t) ≤ i ∧
      i < min (nx - 1) (pEnd nx W t)) ↔ (1 ≤ i ∧ i < 1 + (nx - 2)) := by
    have hcov := pcov nx W hW i
    constructor
    · rintro ⟨t, ht, h1, h2⟩
      rw [(hclip t).1] at h1
      rw [(hclip t).2] at h2
      have := hcov.mp ⟨t, ht, h1, h2⟩
      omega
    · intro hi
      obtain ⟨k, hk, h1, h2⟩ := hcov.mpr (by omega)
      exact ⟨k, hk, (hclip k).1.symm ▸ h1, (hclip k).2.symm ▸ h2⟩
  by_cases hj : 1 ≤ j ∧ j < 1 + (ny - 2)
  · by_cases hi : 1 ≤ i ∧ i < 1 + (nx - 2)
    · rw [if_pos ⟨hiff.mpr hi, hj⟩, if_pos ⟨hi, hj⟩]
    · rw [if_neg (fun h => hi (hiff.mp h.1)), if_neg (fun h => hi h.1)]
  · rw [if_neg (fun h => hj h.2), if_neg (fun h => hj h.2)]

theorem foldl_rblocks_apply (nx ny W2 : ℕ) (hny : 0 < ny) (vr vi : Field2) :
    ∀ (n : ℕ), n ≤ W2 → ∀ (i j : ℕ),
      ((List.range n).foldl
        (fun acc tid =>
          relaxRange ny vr (rBegin nx ny W2 tid) (rEnd nx ny W2 tid) acc) vi) i j
        = if (∃ t, t < n ∧ rBegin nx ny W2 t ≤ i * ny + j ∧
              i * ny + j < rEnd nx ny W2 t) ∧ j < ny
          then (vi i j + vr i j) * 0.5 else vi i j
  | 0, _, i, j => by simp
  | n + 1, hn, i, j => by
    rw [List.range_succ, List.foldl_append, List.foldl_cons, List.foldl_nil,
      relaxRange_apply ny hny, foldl_rblocks_apply nx ny W2 hny vr vi n (by omega)]
    by_cases hj : j < ny
    · by_cases hblk : rBegin nx ny W2 n ≤ i * ny + j ∧ i * ny + j < rEnd nx ny W2 n
      · have hnone : ¬((∃ t, t < n ∧ rBegin nx ny W2 t ≤ i * ny + j ∧
            i * ny + j < rEnd nx ny W2 t) ∧ j < ny) := by
          rintro ⟨⟨t, ht, h1, h2⟩, -⟩
          have := rEnd_le_rBegin nx ny W2 t n ht (by omega)
          omega
        rw [if_pos ⟨hblk, hj⟩, if_neg hnone,
          if_pos ⟨⟨n, by omega, hblk⟩, hj⟩]
      · rw [if_neg (fun h => hblk h.1)]
        by_cases hex : ∃ t, t < n ∧ rBegin nx ny W2 t ≤ i * ny + j ∧
            i * ny + j < rEnd nx ny W2 t
        · obtain ⟨t, ht, hcond⟩ := hex
          rw [if_pos ⟨⟨t, ht, hcond⟩, hj⟩, if_pos ⟨⟨t, by omega, hcond⟩, hj⟩]
        · rw [if_neg (fun h => hex h.1), if_neg]
          rintro ⟨⟨t, ht, hcond⟩, -⟩
          by_cases htn : t = n
          · exact hblk (htn ▸ hcond)
          · exact hex ⟨t, by omega, hcond⟩
    · rw [if_neg (fun h => hj h.2), if_neg (fun h => hj h.2), if_neg (fun h => hj h.2)]

/-- For at least one worker, the partitioned relaxation of the std::thread
fallback computes exactly the single flat averaging loop of the
cache-optimized implementation. -/
theorem parallelRelax_eq_relaxRange (nx ny W2 : ℕ) (hny : 0 < ny) (hW2 : 1 ≤ W2)
    (vr vi : Field2) :
    parallelRelax nx ny W2 vr vi = relaxRange ny vr 0 (nx * ny) vi := by
  funext i j
  unfold parallelRelax
  rw [foldl_rblocks_apply nx ny W2 hny vr vi W2 le_rfl i j, relaxRange_apply ny hny]
  by_cases hj : j < ny
  · by_cases hm : i * ny + j < nx * ny
    · rw [if_pos ⟨(rcov nx ny W2 hW2 _).mpr hm, hj⟩,
        if_pos ⟨⟨Nat.zero_le _, hm⟩, hj⟩]
    · rw [if_neg (fun h => hm (((rcov nx ny W2 hW2 _).mp h.1))),
        if_neg (fun h => hm h.1.2)]
  · rw [if_neg (fun h => hj h.2), if_neg (fun h => hj h.2)]

/-! ## The serial baseline pass equals the cache-optimized pass -/

theorem serialPass_eq_cacheVrStep (nx ny : ℕ) (hnx : 2 < nx) (hny : 2 < ny)
    (vi vr : Field2) :
    serialPass nx ny vi vr = cacheVrStep nx ny vi vr := by
  funext i j
  rw [serialPass_apply]
  unfold cacheVrStep
  rw [boundaryCols_apply nx ny (by omega), boundaryRows_apply nx ny (by omega),
    interiorLoop_apply]
  by_cases hgrid : i < nx ∧ j < ny
  · rw [if_pos hgrid]
    by_cases hint : (1 ≤ i ∧ i < 1 + (nx - 2)) ∧ (1 ≤ j ∧ j < 1 + (ny - 2))
    · rw [if_neg (show ¬(j = 0 ∧ (1 ≤ i ∧ i < 1 + (nx - 2))) by omega),
        if_neg (show ¬(j = ny - 1 ∧ (1 ≤ i ∧ i < 1 + (nx - 2))) by omega),
        if_neg (show ¬(i = 0 ∧ (1 ≤ j ∧ j < 1 + (ny - 2))) by omega),
        if_neg (show ¬(i = nx - 1 ∧ (1 ≤ j ∧ j < 1 + (ny - 2))) by omega),
        if_pos hint]
      have hf : serialF nx ny vi i j
          = some ((vi (i+1) j + vi (i-1) j + vi i (j-1) + vi i (j+1)) / 4) := by
        unfold serialF
        rw [if_pos (show 0 < i ∧ i < nx-1 ∧ 0 < j ∧ j < ny-1 by omega)]
      rw [hf]
      unfold stencilFormula
      simp only [Option.getD_some]
      ring_nf
    · by_cases hcolL : j = 0 ∧ (1 ≤ i ∧ i < 1 + (nx - 2))
      · rw [if_pos hcolL]
        obtain ⟨hj0, hi1⟩ := hcolL
        subst hj0
        have hf : serialF nx ny vi i 0
            = some ((vi (i+1) 0 + vi (i-1) 0 + 15.45 + vi i (0+1)) / 4) := by
          unfold serialF
          rw [if_neg (by omega), if_neg (by omega), if_neg (by omega),
            if_pos (show 0 < i ∧ i < nx-1 ∧ (0:ℕ) = 0 ∧ 0 < ny-1 by omega)]
        rw [hf]
        simp only [Option.getD_some, Nat.zero_add]
        ring_nf
      · rw [if_neg hcolL]
        by_cases hcolR : j = ny - 1 ∧ (1 ≤ i ∧ i < 1 + (nx - 2))
        · rw [if_pos hcolR]
          obtain ⟨hjN, hi1⟩ := hcolR
          subst hjN
          have hf : serialF nx ny vi i (ny-1)
              = some ((vi (i+1) (ny-1) + vi (i-1) (ny-1) + vi i (ny-1-1) - 6.7) / 4) := by
            unfold serialF
            rw [if_neg (by omega), if_neg (by omega), if_neg (by omega),
              if_neg (by omega),
              if_pos (show 0 < i ∧ i < nx-1 ∧ 0 < ny-1 ∧ ny-1 = ny-1 by omega)]
          rw [hf]
          simp only [Option.getD_some]
          have h21 : ny - 1 - 1 = ny - 2 := by omega
          rw [h21]
          ring_nf
        · rw [if_neg hcolR]
          by_cases hrowT : i = 0 ∧ (1 ≤ j ∧ j < 1 + (ny - 2))
          · rw [if_pos hrowT]
            obtain ⟨hi0, hj1⟩ := hrowT
            subst hi0
            have hf : serialF nx ny vi 0 j
                = some ((vi (0+1) j + 10 + vi 0 (j-1) + vi 0 (j+1)) / 4) := by
              unfold serialF
              rw [if_neg (by omega),
                if_pos (show (0:ℕ) = 0 ∧ 0 < nx-1 ∧ 0 < j ∧ j < ny-1 by omega)]
            rw [hf]
            simp only [Option.getD_some, Nat.zero_add]
            ring_nf
          · rw [if_neg hrowT]
            by_cases hrowB : i = nx - 1 ∧ (1 ≤ j ∧ j < 1 + (ny - 2))
            · rw [if_pos hrowB]
              obtain ⟨hiN, hj1⟩ := hrowB
              subst hiN
              have hf : serialF nx ny vi (nx-1) j
                  = some ((5 + vi (nx-1-1) j + vi (nx-1) (j-1) + vi (nx-1) (j+1)) / 4) := by
                unfold serialF
                rw [if_neg (by omega), if_neg (by omega),
                  if_pos (show 0 < nx-1 ∧ nx-1 = nx-1 ∧ 0 < j ∧ j < ny-1 by omega)]
              rw [hf]
              simp only [Option.getD_some]
              have h21 : nx - 1 - 1 = nx - 2 := by omega
              rw [h21]
              ring_nf
            · rw [if_neg hrowB, if_neg hint]
              have hf : serialF nx ny vi i j = none := by
                unfold serialF
                rw [if_neg (by omega), if_neg (by omega), if_neg (by omega),
                  if_neg (by omega), if_neg (by omega)]
              rw [hf]
              rfl
  · rw [if_neg hgrid,
      if_neg (show ¬(j = 0 ∧ (1 ≤ i ∧ i < 1 + (nx - 2))) by omega),
      if_neg (show ¬(j = ny - 1 ∧ (1 ≤ i ∧ i < 1 + (nx - 2))) by omega),
      if_neg (show ¬(i = 0 ∧ (1 ≤ j ∧ j < 1 + (ny - 2))) by omega),
      if_neg (show ¬(i = nx - 1 ∧ (1 ≤ j ∧ j < 1 + (ny - 2))) by omega),
      if_neg (show ¬((1 ≤ i ∧ i < 1 + (nx - 2)) ∧ (1 ≤ j ∧ j < 1 + (ny - 2))) by omega)]

/-- The serial relaxation (`vi/2 + vr/2` over the 2D grid) equals the
cache-optimized flat relaxation (`(vi + vr) * 0.5` over `[0, nx*ny)`). -/
theorem serialRelax_eq_relaxRange (nx ny : ℕ) (hny : 0 < ny) (vr vi : Field2) :
    serialRelax nx ny vr vi = relaxRange ny vr 0 (nx * ny) vi := by
  funext i j
  rw [serialRelax_apply, relaxRange_apply ny hny]
  have hiff : ((0 ≤ i * ny + j ∧ i * ny + j < nx * ny) ∧ j < ny) ↔ (i < nx ∧ j < ny) := by
    constructor
    · rintro ⟨⟨-, hm⟩, hj⟩
      refine ⟨?_, hj⟩
      by_contra hnx2
      push_neg at hnx2
      have := Nat.mul_le_mul_right ny hnx2
      omega
    · rintro ⟨hi, hj⟩
      refine ⟨⟨Nat.zero_le _, ?_⟩, hj⟩
      have h2 : (i + 1) * ny ≤ nx * ny := Nat.mul_le_mul_right ny hi
      have h3 : (i + 1) * ny = i * ny + ny := by ring
      omega
  by_cases hc : i < nx ∧ j < ny
  · rw [if_pos hc, if_pos (hiff.mpr hc)]
    ring_nf
  · rw [if_neg hc, if_neg (fun h => hc (hiff.mp h))]

theorem initSerial_eq_initCache (sin : ℚ → ℚ) (pi : ℚ) (nx : ℕ) :
    initSerial sin pi nx = initCache sin pi nx := rfl

theorem initParallel_eq_initCache (sin : ℚ → ℚ) (pi : ℚ) (nx : ℕ) :
    initParallel sin pi nx = initCache sin pi nx := by
  funext i j
  unfold initParallel initCache
  ring_nf

theorem parVrStep_eq_cacheVrStep (nx ny W : ℕ) (hnx : 3 ≤ nx) (hW : 1 ≤ W)
    (vi vr : Field2) :
    parVrStep nx ny W vi vr = cacheVrStep nx ny vi vr := by
  unfold parVrStep cacheVrStep
  rw [parallelInterior_eq_interiorLoop nx ny W hnx hW]

/-- Whole-run equality of the serial baseline and the cache-optimized
implementation, from the same initial buffers. -/
theorem serialRun_eq_cacheRun (nx ny : ℕ) (hnx : 2 < nx) (hny : 2 < ny)
    (vi vr : Field2) : ∀ nt, serialRun nx ny vi vr nt = cacheRun nx ny vi vr nt
  | 0 => rfl
  | nt + 1 => by
    simp only [serialRun, cacheRun]
    rw [serialRun_eq_cacheRun nx ny hnx hny vi vr nt,
      serialPass_eq_cacheVrStep nx ny hnx hny,
      serialRelax_eq_relaxRange nx ny (by omega)]

/-- Whole-run equality of the std::thread fallback and the cache-optimized
implementation, from the same initial buffers, for any positive worker
counts. -/
theorem parallelRun_eq_cacheRun (nx ny W W2 : ℕ) (hnx : 2 < nx) (hny : 2 < ny)
    (hW : 1 ≤ W) (hW2 : 1 ≤ W2) (vi vr : Field2) :
    ∀ nt, parallelRun nx ny W W2 vi vr nt = cacheRun nx ny vi vr nt
  | 0 => rfl
  | nt + 1 => by
    simp only [parallelRun, cacheRun]
    rw [parallelRun_eq_cacheRun nx ny W W2 hnx hny hW hW2 vi vr nt,
      parVrStep_eq_cacheVrStep nx ny W (by omega) hW,
      parallelRelax_eq_relaxRange nx ny W2 (by omega) hW2]

/-! ## Diagnostic scan membership -/

theorem mem_diagScan (nx ny t : ℕ) (vi vr : Field2) (r : DiagRecord) :
    r ∈ diagScan nx ny t vi vr
      ↔ ∃ i j, i < nx ∧ j < ny ∧ |(|vr i j|) - (|vi i j|)| < 1e-2
          ∧ r = ⟨t, i, j, |vi i j|, |vr i j|⟩ := by
  unfold diagScan
  rw [List.mem_filterMap]
  constructor
  · rintro ⟨⟨ci, cj⟩, hc, hf⟩
    rw [mem_gridCells] at hc
    by_cases hcond : |(|vr ci cj|) - (|vi ci cj|)| < 1e-2
    · rw [if_pos hcond] at hf
      exact ⟨ci, cj, hc.1, hc.2, hcond, (Option.some.injEq _ _ ▸ hf).symm⟩
    · rw [if_neg hcond] at hf
      exact absurd hf (by simp)
  · rintro ⟨i, j, hi, hj, hcond, rfl⟩
    exact ⟨(i, j), (mem_gridCells nx ny i j).mpr ⟨hi, hj⟩, by rw [if_pos hcond]⟩

/-! ## The claims -/

/-- C1: for every configuration with `nx > 2`, `ny > 2` and `nt ≥ 0` (and any
positive worker counts), the three execution strategies — the naive serial
baseline, the cache-optimized single-threaded version, and the multi-threaded
version — produce identical results in the exact-arithmetic semantics: the
same final `current` field, the same final `next` field, and the same
sequence of diagnostic records `(step, i, j, |old|, |new|)`. -/
theorem C1_equivalence (nx ny W W2 : ℕ) (hnx : 2 < nx) (hny : 2 < ny)
    (hW : 1 ≤ W) (hW2 : 1 ≤ W2) (sin : ℚ → ℚ) (pi : ℚ) (nt : ℕ) :
    serialRun nx ny (initSerial sin pi nx) zeroField nt
        = cacheRun nx ny (initCache sin pi nx) zeroField nt
    ∧ parallelRun nx ny W W2 (initParallel sin pi nx) zeroField nt
        = cacheRun nx ny (initCache sin pi nx) zeroField nt := by
  constructor
  · rw [initSerial_eq_initCache]
    exact serialRun_eq_cacheRun nx ny hnx hny _ _ nt
  · rw [initParallel_eq_initCache]
    exact parallelRun_eq_cacheRun nx ny W W2 hnx hny hW hW2 _ _ nt

theorem C1_equivalence_witness :
    (2 < 3 ∧ 2 < 3 ∧ 1 ≤ 1 ∧ 1 ≤ 2) ∧
      (serialRun 3 3 (initSerial (fun _ => 0) 0 3) zeroField 2
          = cacheRun 3 3 (initCache (fun _ => 0) 0 3) zeroField 2
        ∧ parallelRun 3 3 1 2 (initParallel (fun _ => 0) 0 3) zeroField 2
          = cacheRun 3 3 (initCache (fun _ => 0) 0 3) zeroField 2) :=
  ⟨⟨by norm_num, by norm_num, by norm_num, by norm_num⟩,
    C1_equivalence 3 3 1 2 (by norm_num) (by norm_num) (by norm_num) (by norm_num)
      (fun _ => 0) 0 2⟩

/-- C2: the interior update writes
`next[i,j] = (cur[i+1,j] + cur[i-1,j] + cur[i,j-1] + cur[i,j+1]) * 0.25` for
every interior cell `1 ≤ i < nx-1`, `1 ≤ j < ny-1`, reading only the pre-step
`current` field; on a supplied row range `[i_begin, i_end)` the range is
clipped to the interior, only cells in the clipped range are written, and
only in `next`. -/
theorem C2_interior_update (nx ny : ℕ) (hnx : 2 < nx) (hny : 2 < ny)
    (vi vr : Field2) (ib ie : ℕ) :
    (∀ i j, 1 ≤ i → i < nx - 1 → 1 ≤ j → j < ny - 1 →
        interiorLoop nx ny vi vr i j
          = (vi (i+1) j + vi (i-1) j + vi i (j-1) + vi i (j+1)) * 0.25)
    ∧ (∀ i j, max 1 ib ≤ i → i < min (nx - 1) ie → 1 ≤ j → j < ny - 1 →
        stencil_update_block vi vr nx ny ib ie i j
          = (vi (i+1) j + vi (i-1) j + vi i (j-1) + vi i (j+1)) * 0.25)
    ∧ (∀ i j, ¬(max 1 ib ≤ i ∧ i < min (nx - 1) ie ∧ 1 ≤ j ∧ j < ny - 1) →
        stencil_update_block vi vr nx ny ib ie i j = vr i j) := by
  refine ⟨?_, ?_, ?_⟩
  · intro i j h1 h2 h3 h4
    rw [interiorLoop_apply, if_pos ⟨⟨h1, by omega⟩, ⟨h3, by omega⟩⟩]
    rfl
  · intro i j h1 h2 h3 h4
    rw [stencil_update_block_apply, if_pos ⟨⟨h1, h2⟩, ⟨h3, by omega⟩⟩]
    rfl
  · intro i j hno
    rw [stencil_update_block_apply, if_neg]
    rintro ⟨⟨ha, hb⟩, hc, hd⟩
    exact hno ⟨ha, hb, hc, by omega⟩

theorem C2_interior_update_witness :
    (2 < 5 ∧ 2 < 5) ∧
      ((∀ i j, 1 ≤ i → i < 5 - 1 → 1 ≤ j → j < 5 - 1 →
          interiorLoop 5 5 fldA zeroField i j
            = (fldA (i+1) j + fldA (i-1) j + fldA i (j-1) + fldA i (j+1)) * 0.25)
      ∧ (∀ i j, max 1 1 ≤ i → i < min (5 - 1) 4 → 1 ≤ j → j < 5 - 1 →
          stencil_update_block fldA zeroField 5 5 1 4 i j
            = (fldA (i+1) j + fldA (i-1) j + fldA i (j-1) + fldA i (j+1)) * 0.25)
      ∧ (∀ i j, ¬(max 1 1 ≤ i ∧ i < min (5 - 1) 4 ∧ 1 ≤ j ∧ j < 5 - 1) →
          stencil_update_block fldA zeroField 5 5 1 4 i j = zeroField i j)) :=
  ⟨⟨by norm_num, by norm_num⟩,
    C2_interior_update 5 5 (by norm_num) (by norm_num) fldA zeroField 1 4⟩

/-- C3: after the interior update, the four edge lines of `next` are computed
from the pre-step `current` field only (the result is independent of the
`next` argument, which is universally quantified), with the four fixed
substitute constants `10.0`, `5.0`, `15.45`, `-6.7`. -/
theorem C3_boundary_policy (nx ny : ℕ) (hnx : 2 < nx) (hny : 2 < ny)
    (vi vr : Field2) :
    (∀ j, 1 ≤ j → j < ny - 1 →
        cacheVrStep nx ny vi vr 0 j
          = (vi 1 j + 10.0 + vi 0 (j-1) + vi 0 (j+1)) * 0.25
        ∧ cacheVrStep nx ny vi vr (nx-1) j
          = (5.0 + vi (nx-2) j + vi (nx-1) (j-1) + vi (nx-1) (j+1)) * 0.25)
    ∧ (∀ i, 1 ≤ i → i < nx - 1 →
        cacheVrStep nx ny vi vr i 0
          = (vi (i+1) 0 + vi (i-1) 0 + 15.45 + vi i 1) * 0.25
        ∧ cacheVrStep nx ny vi vr i (ny-1)
          = (vi (i+1) (ny-1) + vi (i-1) (ny-1) + vi i (ny-2) - 6.7) * 0.25) := by
  constructor
  · intro j h1 h2
    constructor
    · unfold cacheVrStep
      rw [boundaryCols_apply nx ny (by omega),
        if_neg (show ¬(j = 0 ∧ (1 ≤ 0 ∧ 0 < 1 + (nx - 2))) by omega),
        if_neg (show ¬(j = ny - 1 ∧ (1 ≤ 0 ∧ 0 < 1 + (nx - 2))) by omega),
        boundaryRows_apply nx ny (by omega),
        if_pos ⟨rfl, h1, by omega⟩]
    · unfold cacheVrStep
      rw [boundaryCols_apply nx ny (by omega),
        if_neg (show ¬(j = 0 ∧ (1 ≤ nx - 1 ∧ nx - 1 < 1 + (nx - 2))) by omega),
        if_neg (show ¬(j = ny - 1 ∧ (1 ≤ nx - 1 ∧ nx - 1 < 1 + (nx - 2))) by omega),
        boundaryRows_apply nx ny (by omega),
        if_neg (show ¬(nx - 1 = 0 ∧ (1 ≤ j ∧ j < 1 + (ny - 2))) by omega),
        if_pos ⟨rfl, h1, by omega⟩]
  · intro i h1 h2
    constructor
    · unfold cacheVrStep
      rw [boundaryCols_apply nx ny (by omega),
        if_pos ⟨rfl, h1, by omega⟩]
    · unfold cacheVrStep
      rw [boundaryCols_apply nx ny (by omega),
        if_neg (show ¬(ny - 1 = 0 ∧ (1 ≤ i ∧ i < 1 + (nx - 2))) by omega),
        if_pos ⟨rfl, h1, by omega⟩]

theorem C3_boundary_policy_witness :
    (2 < 5 ∧ 2 < 6) ∧
      ((∀ j, 1 ≤ j → j < 6 - 1 →
          cacheVrStep 5 6 fldB (constField 7) 0 j
            = (fldB 1 j + 10.0 + fldB 0 (j-1) + fldB 0 (j+1)) * 0.25
          ∧ cacheVrStep 5 6 fldB (constField 7) (5-1) j
            = (5.0 + fldB (5-2) j + fldB (5-1) (j-1) + fldB (5-1) (j+1)) * 0.25)
      ∧ (∀ i, 1 ≤ i → i < 5 - 1 →
          cacheVrStep 5 6 fldB (constField 7) i 0
            = (fldB (i+1) 0 + fldB (i-1) 0 + 15.45 + fldB i 1) * 0.25
          ∧ cacheVrStep 5 6 fldB (constField 7) i (6-1)
            = (fldB (i+1) (6-1) + fldB (i-1) (6-1) + fldB i (6-2) - 6.7) * 0.25)) :=
  ⟨⟨by norm_num, by norm_num⟩,
    C3_boundary_policy 5 6 (by norm_num) (by norm_num) fldB (constField 7)⟩

/-- C4: the four corner cells of `next` are written by neither the interior
kernel nor the boundary policy — in each of the three implementations, one
step's update pass leaves each corner of `next` exactly as it was before the
step. -/
theorem C4_corners_untouched (nx ny W : ℕ) (hnx : 2 < nx) (hny : 2 < ny)
    (vi vr : Field2) (x y : ℕ) (hx : x = 0 ∨ x = nx - 1) (hy : y = 0 ∨ y = ny - 1) :
    cacheVrStep nx ny vi vr x y = vr x y
    ∧ serialPass nx ny vi vr x y = vr x y
    ∧ parVrStep nx ny W vi vr x y = vr x y := by
  have hcache : cacheVrStep nx ny vi vr x y = vr x y := by
    unfold cacheVrStep
    rw [boundaryCols_apply nx ny (by omega),
      if_neg (show ¬(y = 0 ∧ (1 ≤ x ∧ x < 1 + (nx - 2))) by omega),
      if_neg (show ¬(y = ny - 1 ∧ (1 ≤ x ∧ x < 1 + (nx - 2))) by omega),
      boundaryRows_apply nx ny (by omega),
      if_neg (show ¬(x = 0 ∧ (1 ≤ y ∧ y < 1 + (ny - 2))) by omega),
      if_neg (show ¬(x = nx - 1 ∧ (1 ≤ y ∧ y < 1 + (ny - 2))) by omega),
      interiorLoop_apply,
      if_neg (show ¬((1 ≤ x ∧ x < 1 + (nx - 2)) ∧ (1 ≤ y ∧ y < 1 + (ny - 2))) by omega)]
  refine ⟨hcache, ?_, ?_⟩
  · rw [serialPass_eq_cacheVrStep nx ny hnx hny]
    exact hcache
  · unfold parVrStep parallelInterior
    rw [boundaryCols_apply nx ny (by omega),
      if_neg (show ¬(y = 0 ∧ (1 ≤ x ∧ x < 1 + (nx - 2))) by omega),
      if_neg (show ¬(y = ny - 1 ∧ (1 ≤ x ∧ x < 1 + (nx - 2))) by omega),
      boundaryRows_apply nx ny (by omega),
      if_neg (show ¬(x = 0 ∧ (1 ≤ y ∧ y < 1 + (ny - 2))) by omega),
      if_neg (show ¬(x = nx - 1 ∧ (1 ≤ y ∧ y < 1 + (ny - 2))) by omega),
      foldl_blocks_apply, if_neg]
    rintro ⟨-, hy1, hy2⟩
    omega

theorem C4_corners_untouched_witness :
    (2 < 4 ∧ 2 < 5 ∧ ((0 : ℕ) = 0 ∨ (0 : ℕ) = 4 - 1) ∧ ((4 : ℕ) = 0 ∨ (4 : ℕ) = 5 - 1)) ∧
      (cacheVrStep 4 5 fldC fldD 0 4 = fldD 0 4
        ∧ serialPass 4 5 fldC fldD 0 4 = fldD 0 4
        ∧ parVrStep 4 5 3 fldC fldD 0 4 = fldD 0 4) :=
  ⟨⟨by norm_num, by norm_num, by norm_num, by norm_num⟩,
    C4_corners_untouched 4 5 3 (by norm_num) (by norm_num) fldC fldD 0 4
      (by norm_num) (by norm_num)⟩

/-- C5: the diagnostic scan traverses all `nx*ny` cells (boundaries and
corners included) and emits the record `(t, i, j, |cur[i,j]|, |next[i,j]|)`
for a cell if and only if `| |next[i,j]| - |cur[i,j]| | < 1e-2`, with strict
comparison: a difference of exactly `1e-2` is not recorded, one of
`0.999e-2` is. -/
theorem C5_diag_scan (nx ny t : ℕ) (vi vr : Field2) (i j : ℕ)
    (hi : i < nx) (hj : j < ny) :
    ((gridCells nx ny).length = nx * ny)
    ∧ ((i, j) ∈ gridCells nx ny)
    ∧ ((⟨t, i, j, |vi i j|, |vr i j|⟩ : DiagRecord) ∈ diagScan nx ny t vi vr
        ↔ |(|vr i j|) - (|vi i j|)| < 1e-2)
    ∧ (|(|vr i j|) - (|vi i j|)| = 1e-2 →
        (⟨t, i, j, |vi i j|, |vr i j|⟩ : DiagRecord) ∉ diagScan nx ny t vi vr)
    ∧ (|(|vr i j|) - (|vi i j|)| = 0.999e-2 →
        (⟨t, i, j, |vi i j|, |vr i j|⟩ : DiagRecord) ∈ diagScan nx ny t vi vr) := by
  have hiff : (⟨t, i, j, |vi i j|, |vr i j|⟩ : DiagRecord) ∈ diagScan nx ny t vi vr
      ↔ |(|vr i j|) - (|vi i j|)| < 1e-2 := by
    rw [mem_diagScan]
    constructor
    · rintro ⟨i', j', hi', hj', hcond, heq⟩
      injection heq with h1 h2 h3 h4 h5
      rw [h2, h3]
      exact hcond
    · intro hcond
      exact ⟨i, j, hi, hj, hcond, rfl⟩
  refine ⟨length_gridCells nx ny, (mem_gridCells nx ny i j).mpr ⟨hi, hj⟩, hiff, ?_, ?_⟩
  · intro heq hmem
    rw [hiff] at hmem
    rw [heq] at hmem
    exact lt_irrefl _ hmem
  · intro heq
    rw [hiff, heq]
    norm_num

theorem C5_diag_scan_witness :
    (1 < 3 ∧ 2 < 4) ∧
      (((gridCells 3 4).length = 3 * 4)
      ∧ ((1, 2) ∈ gridCells 3 4)
      ∧ ((⟨5, 1, 2, |fldA 1 2|, |fldB 1 2|⟩ : DiagRecord) ∈ diagScan 3 4 5 fldA fldB
          ↔ |(|fldB 1 2|) - (|fldA 1 2|)| < 1e-2)
      ∧ (|(|fldB 1 2|) - (|fldA 1 2|)| = 1e-2 →
          (⟨5, 1, 2, |fldA 1 2|, |fldB 1 2|⟩ : DiagRecord) ∉ diagScan 3 4 5 fldA fldB)
      ∧ (|(|fldB 1 2|) - (|fldA 1 2|)| = 0.999e-2 →
          (⟨5, 1, 2, |fldA 1 2|, |fldB 1 2|⟩ : DiagRecord) ∈ diagScan 3 4 5 fldA fldB)) :=
  ⟨⟨by norm_num, by norm_num⟩,
    C5_diag_scan 3 4 5 fldA fldB 1 2 (by norm_num) (by norm_num)⟩

/-- C6: for every `nx ≥ 3` and worker count `W ≥ 1`, the reference
partitioning `chunk = max(1, (nx-2)/W)`, worker `k` receiving
`[1 + k*chunk, min(nx-1, 1 + (k+1)*chunk))` with the last worker extended to
`nx-1`, produces pairwise disjoint row ranges whose union is exactly the
interior `[1, nx-1)`: no gaps and no overlaps. -/
theorem C6_partition_coverage (nx W : ℕ) (hnx : 3 ≤ nx) (hW : 1 ≤ W) :
    (∀ i, (1 ≤ i ∧ i < nx - 1)
        ↔ ∃ k, k < W ∧ pBegin nx W k ≤ i ∧ i < pEnd nx W k)
    ∧ (∀ k1 k2 i, k1 < W → k2 < W → k1 ≠ k2 →
        ¬((pBegin nx W k1 ≤ i ∧ i < pEnd nx W k1)
          ∧ (pBegin nx W k2 ≤ i ∧ i < pEnd nx W k2))) := by
  refine ⟨fun i => (pcov nx W hW i).symm, ?_⟩
  intro k1 k2 i h1 h2 hne
  rintro ⟨⟨ha1, ha2⟩, hb1, hb2⟩
  rcases Nat.lt_or_ge k1 k2 with h | h
  · have := pEnd_le_pBegin nx W k1 k2 h h2
    omega
  · have hlt : k2 < k1 := by omega
    have := pEnd_le_pBegin nx W k2 k1 hlt h1
    omega

theorem C6_partition_coverage_witness :
    (3 ≤ 7 ∧ 1 ≤ 3) ∧
      ((∀ i, (1 ≤ i ∧ i < 7 - 1)
          ↔ ∃ k, k < 3 ∧ pBegin 7 3 k ≤ i ∧ i < pEnd 7 3 k)
      ∧ (∀ k1 k2 i, k1 < 3 → k2 < 3 → k1 ≠ k2 →
          ¬((pBegin 7 3 k1 ≤ i ∧ i < pEnd 7 3 k1)
            ∧ (pBegin 7 3 k2 ≤ i ∧ i < pEnd 7 3 k2)))) :=
  ⟨⟨by norm_num, by norm_num⟩, C6_partition_coverage 7 3 (by norm_num) (by norm_num)⟩

/-- C7: the relaxation step updates every one of the `nx*ny` cells to
`(current[i,j] + next[i,j]) * 0.5` (in the serial baseline, the equal
expression `current/2 + next/2`), and the relaxed value lies between the
pre-step `current` value and the post-boundary `next` value. -/
theorem C7_relaxation (nx ny : ℕ) (hny : 0 < ny) (vi vr : Field2) (i j : ℕ)
    (hi : i < nx) (hj : j < ny) :
    relaxRange ny vr 0 (nx * ny) vi i j = (vi i j + vr i j) * 0.5
    ∧ serialRelax nx ny vr vi i j = (vi i j + vr i j) * 0.5
    ∧ min (vi i j) (vr i j) ≤ (vi i j + vr i j) * 0.5
    ∧ (vi i j + vr i j) * 0.5 ≤ max (vi i j) (vr i j) := by
  have henc : (0 ≤ i * ny + j ∧ i * ny + j < nx * ny) ∧ j < ny := by
    refine ⟨⟨Nat.zero_le _, ?_⟩, hj⟩
    have h2 : (i + 1) * ny ≤ nx * ny := Nat.mul_le_mul_right ny hi
    have h3 : (i + 1) * ny = i * ny + ny := by ring
    omega
  refine ⟨?_, ?_, ?_, ?_⟩
  · rw [relaxRange_apply ny hny, if_pos henc]
  · rw [serialRelax_apply, if_pos ⟨hi, hj⟩]
    ring_nf
  · rcases le_total (vi i j) (vr i j) with h | h
    · rw [min_eq_left h]
      nlinarith
    · rw [min_eq_right h]
      nlinarith
  · rcases le_total (vi i j) (vr i j) with h | h
    · rw [max_eq_right h]
      nlinarith
    · rw [max_eq_left h]
      nlinarith

theorem C7_relaxation_witness :
    (0 < 4 ∧ 2 < 3 ∧ 1 < 4) ∧
      (relaxRange 4 fldB 0 (3 * 4) fldA 2 1 = (fldA 2 1 + fldB 2 1) * 0.5
      ∧ serialRelax 3 4 fldB fldA 2 1 = (fldA 2 1 + fldB 2 1) * 0.5
      ∧ min (fldA 2 1) (fldB 2 1) ≤ (fldA 2 1 + fldB 2 1) * 0.5
      ∧ (fldA 2 1 + fldB 2 1) * 0.5 ≤ max (fldA 2 1) (fldB 2 1)) :=
  ⟨⟨by norm_num, by norm_num, by norm_num⟩,
    C7_relaxation 3 4 (by norm_num) fldA fldB 2 1 (by norm_num) (by norm_num)⟩

/-- C8 is falsified by the code: none of the three programs validates its
configuration.  With `nx = 2` (`≤ 2`) and `nt = 7` each program runs all 7
steps and terminates normally instead of rejecting before the first step, and
with `nt = -3` the cache-optimized program terminates normally (exit 0, zero
steps) instead of reporting a fatal `InvalidConfiguration` error. -/
theorem C8_counterexample :
    (cacheMain (fun _ => 0) 0 2 5 7 true).isFatal = false
    ∧ cacheMain (fun _ => 0) 0 2 5 7 true
        = .finished (cacheRun 2 5 (initCache (fun _ => 0) 0 2) zeroField 7).1
            (cacheRun 2 5 (initCache (fun _ => 0) 0 2) zeroField 7).2.1
            (cacheRun 2 5 (initCache (fun _ => 0) 0 2) zeroField 7).2.2
    ∧ (parallelMain (fun _ => 0) 0 2 5 1 1 7 true).isFatal = false
    ∧ (serialMain (fun _ => 0) 0 2 5 7 true).isFatal = false
    ∧ (cacheMain (fun _ => 0) 0 10 10 (-3) true).isFatal = false
    ∧ cacheMain (fun _ => 0) 0 10 10 (-3) true
        = .finished (initCache (fun _ => 0) 0 10) zeroField [] :=
  ⟨rfl, rfl, rfl, rfl, rfl, rfl⟩

/-- C8 amended: the three programs perform no configuration validation at
all.  Whatever `nx`, `ny` and `nt` are parsed, with a usable sink every
program proceeds into the stepping loop, executes `max(nt, 0)` steps (so a
negative `nt` merely yields zero steps), and terminates with status 0; a
degenerate grid (`nx ≤ 2` or `ny ≤ 2`) is never rejected. -/
theorem C8_amended (sin : ℚ → ℚ) (pi : ℚ) (nx ny W W2 m : ℕ) (nt : ℤ) :
    (cacheMain sin pi nx ny nt true).isFatal = false
    ∧ cacheMain sin pi nx ny nt true
        = .finished (cacheRun nx ny (initCache sin pi nx) zeroField nt.toNat).1
            (cacheRun nx ny (initCache sin pi nx) zeroField nt.toNat).2.1
            (cacheRun nx ny (initCache sin pi nx) zeroField nt.toNat).2.2
    ∧ (parallelMain sin pi nx ny W W2 nt true).isFatal = false
    ∧ (serialMain sin pi nx ny nt true).isFatal = false
    ∧ cacheMain sin pi nx ny (-(m : ℤ) - 1) true
        = .finished (initCache sin pi nx) zeroField [] := by
  refine ⟨rfl, rfl, rfl, rfl, ?_⟩
  have hz : (-(m : ℤ) - 1).toNat = 0 := by omega
  unfold cacheMain
  rw [if_pos rfl, hz]
  rfl

/-- C9 is falsified for the serial baseline: it opens the diagnostic sink
without checking the stream, so on a sink-open failure it does not abort —
it performs all the stepping work (here 3 full steps) and exits with
status 0. -/
theorem C9_counterexample :
    (serialMain (fun _ => 0) 0 5 5 3 false).isFatal = false
    ∧ serialMain (fun _ => 0) 0 5 5 3 false
        = .finished (serialRun 5 5 (initSerial (fun _ => 0) 0 5) zeroField 3).1
            (serialRun 5 5 (initSerial (fun _ => 0) 0 5) zeroField 3).2.1
            (serialRun 5 5 (initSerial (fun _ => 0) 0 5) zeroField 3).2.2 :=
  ⟨rfl, rfl⟩

/-- C9 amended: when the diagnostic sink cannot be opened, the
cache-optimized and parallel programs abort with exit status 1 before any
time step; the serial baseline performs no such check and executes all
`max(nt, 0)` steps, terminating with status 0. -/
theorem C9_amended (sin : ℚ → ℚ) (pi : ℚ) (nx ny W W2 : ℕ) (nt : ℤ) :
    cacheMain sin pi nx ny nt false = .fatal 1
    ∧ parallelMain sin pi nx ny W W2 nt false = .fatal 1
    ∧ (serialMain sin pi nx ny nt false).isFatal = false
    ∧ serialMain sin pi nx ny nt false
        = .finished (serialRun nx ny (initSerial sin pi nx) zeroField nt.toNat).1
            (serialRun nx ny (initSerial sin pi nx) zeroField nt.toNat).2.1
            (serialRun nx ny (initSerial sin pi nx) zeroField nt.toNat).2.2 :=
  ⟨rfl, rfl, rfl, rfl⟩

/-- C10: for `nx ≥ 3` and every row range `[i_begin, i_end)` handed to the
parallel fallback's stencil worker — including the empty or reversed ranges
the partitioner produces for trailing workers — the worker writes only cells
with `max(1, i_begin) ≤ i < min(nx-1, i_end)` and `1 ≤ j ≤ ny-2`; every such
cell lies strictly inside the row boundaries and within the `nx*ny`
buffer. -/
theorem C10_block_safety (nx ny : ℕ) (hnx : 3 ≤ nx) (vi vr : Field2)
    (i_begin i_end : ℕ) (i j : ℕ) :
    (¬(max 1 i_begin ≤ i ∧ i < min (nx - 1) i_end ∧ 1 ≤ j ∧ j ≤ ny - 2) →
        stencil_update_block vi vr nx ny i_begin i_end i j = vr i j)
    ∧ ((max 1 i_begin ≤ i ∧ i < min (nx - 1) i_end ∧ 1 ≤ j ∧ j ≤ ny - 2) →
        1 ≤ i ∧ i < nx - 1 ∧ i * ny + j < nx * ny) := by
  constructor
  · intro hno
    rw [stencil_update_block_apply, if_neg]
    rintro ⟨⟨ha, hb⟩, hc, hd⟩
    exact hno ⟨ha, hb, hc, by omega⟩
  · rintro ⟨h1, h2, h3, h4⟩
    have ha := le_trans (le_max_left 1 i_begin) h1
    have hb := lt_of_lt_of_le h2 (min_le_left (nx - 1) i_end)
    refine ⟨ha, hb, ?_⟩
    have hj2 : j < ny := by omega
    have h5 : (i + 1) * ny = i * ny + ny := by ring
    have h6 : (i + 1) * ny ≤ nx * ny := Nat.mul_le_mul_right ny (by omega)
    omega

theorem C10_block_safety_witness :
    (3 ≤ 6) ∧
      ((¬(max 1 4 ≤ 2 ∧ 2 < min (6 - 1) 9 ∧ 1 ≤ 3 ∧ 3 ≤ 5 - 2) →
          stencil_update_block fldA fldB 6 5 4 9 2 3 = fldB 2 3)
      ∧ ((max 1 4 ≤ 2 ∧ 2 < min (6 - 1) 9 ∧ 1 ≤ 3 ∧ 3 ≤ 5 - 2) →
          1 ≤ 2 ∧ 2 < 6 - 1 ∧ 2 * 5 + 3 < 6 * 5)) :=
  ⟨by norm_num, C10_block_safety 6 5 (by norm_num) fldA fldB 4 9 2 3⟩

end StencilSim
